import Mathlib

/-!
Verification development for the UCI report pipeline
(`scripts/uci_build_report.py` of apoyomedicoips/uciips).

The normalization-and-aggregation core is shallowly embedded:

* text values are lists of characters (`Txt`); the Python `str` helpers
  (`strip`, `lower`, `rstrip(":")`, substring test, accent folding via
  NFKD) are modelled character-wise over the Spanish repertoire the
  pipeline actually touches;
* calendar timestamps downstream of parsing are day indices (`Nat`),
  which is faithful for the min/max/range arithmetic the pipeline does;
  the year-fix step of `parse_date_series` is modelled on a
  year/month/day structure;
* the external parser `pd.to_datetime` is a parameter
  `p : Txt → Option Nat` of the pipeline model;
* `pandas` missing values (`NaN`/`NaT`/`pd.NA`) are `Option.none` or the
  explicit `TriState.na` state;
* Python floats are modelled as exact rationals `ℚ`.
-/

/-- Text values: Python strings as lists of characters. -/
abbrev Txt := List Char

/-- Whitespace recognised by `str.strip` on the data in play
(ordinary spaces, tabs, newlines, and the non-breaking space the spec
calls out). -/
def isSpaceChar (c : Char) : Bool :=
  c == ' ' || c == '\t' || c == '\n' || c == '\r' || c == ' '

/-- Model of `_accent_fold` (NFKD then drop combining marks), character-wise
over the accented Spanish letters appearing in the source's rules and data. -/
def foldChar : Char → Char
  | 'á' => 'a' | 'é' => 'e' | 'í' => 'i' | 'ó' => 'o' | 'ú' => 'u'
  | 'Á' => 'A' | 'É' => 'E' | 'Í' => 'I' | 'Ó' => 'O' | 'Ú' => 'U'
  | 'ñ' => 'n' | 'Ñ' => 'N' | 'ü' => 'u' | 'Ü' => 'U'
  | c => c

def accentFold (t : Txt) : Txt := t.map foldChar

/-- Model of `str.lower` over ASCII letters plus the accented letters in play. -/
def lowerChar (c : Char) : Char :=
  if 'A' ≤ c && c ≤ 'Z' then Char.ofNat (c.toNat + 32)
  else match c with
  | 'Á' => 'á' | 'É' => 'é' | 'Í' => 'í' | 'Ó' => 'ó' | 'Ú' => 'ú'
  | 'Ñ' => 'ñ' | 'Ü' => 'ü'
  | c => c

def lowerTxt (t : Txt) : Txt := t.map lowerChar

/-- Model of `str.strip()`. -/
def trimTxt (t : Txt) : Txt :=
  ((t.dropWhile isSpaceChar).reverse.dropWhile isSpaceChar).reverse

/-- Model of `str.rstrip(":")`: drop every trailing colon. -/
def rstripColon (t : Txt) : Txt :=
  (t.reverse.dropWhile (fun c => c == ':')).reverse

/-- Pattern `pat` is a leading segment of `t`. -/
def hasPre (pat t : Txt) : Bool :=
  match pat, t with
  | [], _ => true
  | _ :: _, [] => false
  | p :: ps, c :: cs => p == c && hasPre ps cs

/-- Model of Python's `pat in t` substring test. -/
def containsSub (t pat : Txt) : Bool :=
  match t with
  | [] => pat.isEmpty
  | _ :: cs => hasPre pat t || containsSub cs pat

/-- Tri-state boolean: pandas nullable boolean `True` / `False` / `pd.NA`. -/
inductive TriState where
  | yes
  | nope
  | na
deriving DecidableEq

/-- Python `str()` of a pandas nullable-boolean entry. -/
def triStr : TriState → Txt
  | .yes => "True".data
  | .nope => "False".data
  | .na => "<NA>".data

/-- Affirmative tokens of `to_bool` (source line 52). -/
def siTokens : List Txt :=
  ["si".data, "sí".data, "yes".data, "y".data, "1".data, "true".data, "verdadero".data]

/-- Negative tokens of `to_bool` (source line 53). -/
def noTokens : List Txt :=
  ["no".data, "n".data, "0".data, "false".data, "falso".data]

/-- Model of `to_bool` (source lines 50-56): lowercase the stripped text and
match the token sets; the two mask sets are disjoint, so first-match order
is immaterial. Anything else stays `pd.NA`. -/
def to_bool (x : Txt) : TriState :=
  let s := lowerTxt (trimTxt x)
  if siTokens.contains s then .yes
  else if noTokens.contains s then .nope
  else .na

/-- Base-10 digits to a natural number. -/
def natOfDigits (t : Txt) : Nat :=
  t.foldl (fun n c => n * 10 + (c.toNat - 48)) 0

/-- Model of `to_int` (source lines 58-59, `pd.to_numeric(errors="coerce")`
then `astype("Int64")`) on the integral text of the domain: optional sign
followed by digits parses; anything else is absent. -/
def to_int (x : Txt) : Option Int :=
  let s := trimTxt x
  match s with
  | [] => none
  | '-' :: rest =>
      if rest ≠ [] ∧ rest.all Char.isDigit then some (-(natOfDigits rest : Int)) else none
  | _ => if s.all Char.isDigit then some (natOfDigits s : Int) else none

/-- Model of `canon_outcome` (source lines 162-170). -/
def canon_outcome (x : Txt) : Txt :=
  let t := rstripColon (trimTxt (lowerTxt (accentFold x)))
  if containsSub t ("obito".data) then "Óbito".data
  else if containsSub t ("alta".data) then "Alta a piso".data
  else rstripColon (trimTxt x)

/-- Model of `canon_kpc` (source lines 172-186). -/
def canon_kpc (x : Txt) : Txt :=
  let t := lowerTxt (accentFold x)
  if containsSub t ("negativo".data) then "Negativo".data
  else if containsSub t ("pendiente retorno".data) then "Pendiente HR ingreso".data
  else if containsSub t ("prevalencia".data) then "HR de Prevalencia".data
  else if containsSub t ("ingreso".data) then "HR de Ingreso".data
  else if containsSub t ("portador".data) || containsSub t ("plasmido".data)
          || containsSub t ("mdr".data) then "Conocido portador MDR".data
  else x

/-- Replacement dictionary of `canon_servicio` (source lines 192-195). -/
def servicioRepl : List (Txt × Txt) :=
  [("Traumatologia".data, "Traumatología".data),
   ("Urologia".data, "Urología".data),
   ("Mastologia".data, "Mastología".data),
   ("IPS INTERIOR".data, "IPS Interior".data),
   ("Reanimacion".data, "Reanimación".data),
   ("Clinica Medica".data, "Clínica Médica".data)]

/-- Model of `canon_servicio` (source lines 188-196): exact lookup of the
accent-folded, stripped text; unmatched text passes through. -/
def canon_servicio (x : Txt) : Txt :=
  match servicioRepl.find? (fun p => p.fst == trimTxt (accentFold x)) with
  | some p => p.snd
  | none => x

/-- Calendar date for the year-fix model. -/
structure YMD where
  year : Nat
  month : Nat
  day : Nat
deriving DecidableEq

/-- Gregorian leap year. -/
def isLeap (y : Nat) : Bool :=
  decide (y % 4 = 0 ∧ (y % 100 ≠ 0 ∨ y % 400 = 0))

def daysInMonth (y m : Nat) : Nat :=
  if m = 2 then (if isLeap y then 29 else 28)
  else if m = 4 ∨ m = 6 ∨ m = 9 ∨ m = 11 then 30
  else 31

/-- The date is a real calendar date (what `pd.to_datetime` can produce). -/
def validYMD (d : YMD) : Prop :=
  1 ≤ d.month ∧ d.month ≤ 12 ∧ 1 ≤ d.day ∧ d.day ≤ daysInMonth d.year d.month

instance : DecidablePred validYMD := fun d => by
  unfold validYMD
  infer_instance

/-- Model of `y.replace(year=...)` wrapped in `try/except` (source lines
43-46): the year is replaced when the resulting date exists, otherwise the
date is returned unchanged. -/
def replaceYear (d : YMD) (y : Nat) : YMD :=
  if d.day ≤ daysInMonth y d.month then ⟨y, d.month, d.day⟩ else d

/-- Model of the `_fix` year-typo correction inside `parse_date_series`
(source lines 39-47). -/
def fixYear (d : YMD) : YMD :=
  if 1000 ≤ d.year ∧ d.year ≤ 1100 then replaceYear d (d.year + 1000) else d

/-- One spreadsheet row after the Column Mapper, restricted to the fields
the verified claims touch; every cell is free text. -/
structure RawRec where
  fec_ing : Txt
  fec_egr : Txt
  los : Txt
  cond_egreso : Txt
  kpc_mbl : Txt
  origen : Txt
  tipo : Txt
  medico : Txt
  vi : Txt
  apache2 : Txt
  sofa48 : Txt
deriving DecidableEq

/-- Canonical record produced by `prepare` (source lines 198-236), dates as
day indices. -/
structure Canon where
  fec_ing : Option Nat
  fec_egr : Option Nat
  los : Option Int
  los_calc : Option Int
  los_final : Option Int
  cond_egreso : Txt
  kpc_mbl : Txt
  origen : Txt
  tipo : Txt
  medico : Txt
  vi : TriState
  apache2 : Option Int
  sofa48 : Option Int
deriving DecidableEq

/-- Model of `parse_date_series` minus the year fix (source lines 36-38):
strip, treat the literals for absent values as absent, then hand the rest
to the external day-first parser `p` (`pd.to_datetime(..., dayfirst=True,
errors="coerce")`), whose failures are `none`. -/
def parse_date_chain (p : Txt → Option Nat) (x : Txt) : Option Nat :=
  let s := trimTxt x
  if s == ([] : Txt) || s == "NaT".data || s == "nan".data then none else p s

/-- Row-wise `fillna`: the first value when present, else the second. -/
def fillFirst (a b : Option Int) : Option Int :=
  match a with
  | some v => some v
  | none => b

/-- Model of `los_calc` (source lines 230-231): day difference kept only
when non-negative. -/
def losCalcOf (ing egr : Option Nat) : Option Int :=
  match ing, egr with
  | some i, some e =>
      let d : Int := (e : Int) - (i : Int)
      if 0 ≤ d then some d else none
  | _, _ => none

/-- Row-wise model of the column transformations of `prepare` (source lines
198-232) on a full-width row, including `los_final = los.fillna(los_calc)`. -/
def normRow (p : Txt → Option Nat) (r : RawRec) : Canon :=
  let ing := parse_date_chain p r.fec_ing
  let egr := parse_date_chain p r.fec_egr
  let losRec := to_int r.los
  let losC := losCalcOf ing egr
  ⟨ing, egr, losRec, losC,
   fillFirst losRec losC,
   canon_outcome r.cond_egreso,
   canon_kpc r.kpc_mbl,
   canon_servicio r.origen,
   trimTxt r.tipo,
   trimTxt r.medico,
   to_bool r.vi,
   to_int r.apache2,
   to_int r.sofa48⟩

/-- Model of `prepare` on a full-width table: normalize every row, then keep
exactly the rows whose admission date parsed (source line 235). -/
def prepareRows (p : Txt → Option Nat) (rows : List RawRec) : List Canon :=
  (rows.map (normRow p)).filter (fun c => c.fec_ing.isSome)

/-- Admission dates present in the table (pandas min/max skip `NaT`). -/
def ingList (rs : List Canon) : List Nat := rs.filterMap (fun r => r.fec_ing)

/-- Discharge dates present in the table. -/
def egrList (rs : List Canon) : List Nat := rs.filterMap (fun r => r.fec_egr)

/-- Minimum of a nonempty list, modelling a pandas series `.min()`. -/
def minN (l : List Nat) : Nat :=
  match l with
  | [] => 0
  | a :: t => t.foldl min a

/-- Maximum of a nonempty list, modelling a pandas series `.max()`. -/
def maxN (l : List Nat) : Nat :=
  match l with
  | [] => 0
  | a :: t => t.foldl max a

/-- Census span start (source lines 249-251): min admission, lowered to the
min discharge when any discharge exists. -/
def spanStart (rs : List Canon) : Nat :=
  if egrList rs = [] then minN (ingList rs)
  else min (minN (ingList rs)) (minN (egrList rs))

/-- Census span end (source lines 252-254): max admission, raised to the max
discharge when any discharge exists. -/
def spanEnd (rs : List Canon) : Nat :=
  if egrList rs = [] then maxN (ingList rs)
  else max (maxN (ingList rs)) (maxN (egrList rs))

/-- Model of `pd.date_range(a, b, freq="D")`: empty when `b < a`. -/
def rangeDays (a b : Nat) : List Nat :=
  (List.range (b + 1 - a)).map (fun i => a + i)

/-- The calendar-day axis `idx` of the census (source line 255). -/
def spanDays (rs : List Canon) : List Nat :=
  rangeDays (spanStart rs) (spanEnd rs)

/-- Admission day for the per-record census loop (`r["fec_ing"].date()`). -/
def ingD (r : Canon) : Nat := r.fec_ing.getD 0

/-- End day of the record's stay interval (source line 264): discharge when
present, else the admission day. -/
def endDay (r : Canon) : Nat := r.fec_egr.getD (ingD r)

/-- One census increment (source lines 266-267): bump the counter of day `d`
when `d` lies on the day axis. -/
def bumpDay (idx : List Nat) (c : Nat → Nat) (d : Nat) : Nat → Nat :=
  if d ∈ idx then (fun x => if x = d then c d + 1 else c x) else c

/-- All increments of one record (source lines 263-267). -/
def addRec (idx : List Nat) (c : Nat → Nat) (r : Canon) : Nat → Nat :=
  (rangeDays (ingD r) (endDay r)).foldl (bumpDay idx) c

/-- Model of the census accumulation of `timeseries_and_census` (source
lines 261-267): zero counters over the day axis, then one pass over the
records. -/
def census (rs : List Canon) : Nat → Nat :=
  rs.foldl (addRec (spanDays rs)) (fun _ => 0)

/-- Model of `safe_pct` (source lines 67-68); `if den` is Python truthiness,
so a zero denominator yields 0 with no division. -/
def safe_pct (num den : ℚ) : ℚ :=
  if den = 0 then 0 else num / den * 100

/-- Egress count (source line 344). -/
def egresos (rs : List Canon) : Nat := rs.countP (fun r => r.fec_egr.isSome)

/-- Death count (source line 345): canonical outcome equals the Death label. -/
def obitos (rs : List Canon) : Nat :=
  rs.countP (fun r => r.cond_egreso == "Óbito".data)

/-- Invasive-ventilation rate (source lines 356-357): mean of the tri-state
flag over known values, as a percentage; absent when no value is known. -/
def viRate (l : List TriState) : Option ℚ :=
  let known := l.filterMap (fun t =>
    match t with
    | .yes => some (1 : ℚ)
    | .nope => some 0
    | .na => none)
  if known.length = 0 then none else some (known.sum / known.length * 100)

/-- Scalar results of `compute_kpis` used by the claims. -/
structure Kpis where
  admisiones : Nat
  egresos : Nat
  obitos : Nat
  mort_sobre_egresos : ℚ
  mort_sobre_admisiones : ℚ
  vi_rate : Option ℚ
  periodo_ini : Option Nat
  periodo_fin : Option Nat
deriving DecidableEq

/-- Model of `compute_kpis` (source lines 342-380) on the prepared table:
counts, zero-guarded mortality rates, the re-normalized ventilation flag
(`to_bool(df["vi"])` applied to the already-normalized boolean column, hence
the composition with `triStr`), and the observed period, whose end is the
max discharge whenever any discharge exists, else the max admission. -/
def compute_kpis (rs : List Canon) : Kpis :=
  ⟨rs.length,
   egresos rs,
   obitos rs,
   safe_pct (obitos rs) (egresos rs),
   safe_pct (obitos rs) rs.length,
   viRate (rs.map (fun r => to_bool (triStr r.vi))),
   (if ingList rs = [] then none else some (minN (ingList rs))),
   (if egrList rs = [] then
      (if ingList rs = [] then none else some (maxN (ingList rs)))
    else some (maxN (egrList rs)))⟩

/-- Period end as the spec words it (§4.8): maximum of max discharge and max
admission. Stated for comparison with the source's `periodo_fin`. -/
def specPeriodoFin (rs : List Canon) : Option Nat :=
  if ingList rs ++ egrList rs = [] then none
  else some (maxN (ingList rs ++ egrList rs))

/-- Final length of stay as the spec words it (§3): the recorded value if
present, else the non-negative day difference, else absent. Stated for
comparison with the source's `los_final`. -/
def specFinalLos (recorded : Option Int) (ing egr : Option Nat) : Option Int :=
  match recorded with
  | some v => some v
  | none =>
      match ing, egr with
      | some i, some e => if (i : Int) ≤ (e : Int) then some ((e : Int) - (i : Int)) else none
      | _, _ => none

/-- Rows of one group (`df.groupby(key)` bucket for key value `k`). -/
def groupOf (key : Canon → Txt) (rs : List Canon) (k : Txt) : List Canon :=
  rs.filter (fun r => key r == k)

/-- Group case count (`g.size()`, source lines 385, 397, 407). -/
def grpCasos (key : Canon → Txt) (rs : List Canon) (k : Txt) : Nat :=
  (groupOf key rs k).length

/-- Group death count (source lines 386, 398, 408). -/
def grpObitos (key : Canon → Txt) (rs : List Canon) (k : Txt) : Nat :=
  (groupOf key rs k).countP (fun r => r.cond_egreso == "Óbito".data)

/-- Group egress count (source lines 387, 399, 409). -/
def grpEgresos (key : Canon → Txt) (rs : List Canon) (k : Txt) : Nat :=
  (groupOf key rs k).countP (fun r => r.fec_egr.isSome)

/-- Group mortality column (source lines 388, 400, 410):
`obitos / egresos.replace(0, np.nan) * 100`, so a zero egress count stores
`NaN` (modelled `none`), never a raised division error. -/
def grpMort (key : Canon → Txt) (rs : List Canon) (k : Txt) : Option ℚ :=
  if grpEgresos key rs k = 0 then none
  else some ((grpObitos key rs k : ℚ) / (grpEgresos key rs k : ℚ) * 100)

/-- One decimal digit rendering of a rational (round half up), for the
defined branch of `fmt_pct`. -/
def fmtQ1 (v : ℚ) : Txt :=
  let m : Int := ⌊v * 10 + 1 / 2⌋
  let a := m.natAbs
  (if m < 0 then ['-'] else []) ++ (Nat.toDigits 10 (a / 10)) ++ ['.'] ++ (Nat.toDigits 10 (a % 10))

/-- Model of `fmt_pct` (source lines 78-81): `None`/`NaN` renders as
`"0.0%"`; a number renders with one decimal and a percent sign. -/
def fmt_pct (x : Option ℚ) : Txt :=
  match x with
  | none => "0.0%".data
  | some v => fmtQ1 v ++ ['%']

/-- Model of the `los_final` assignment of `prepare` (source line 232),
`df.get("los").fillna(df.get("los_calc"))`, at table level with optional
columns: `df.get` of an absent column is Python `None`, on which `.fillna`
raises `AttributeError`; `fillna(None)` on a present column raises
`ValueError`. -/
def losFinalStep (losCol losCalcCol : Option (List (Option Int))) :
    Except Txt (List (Option Int)) :=
  match losCol with
  | none => Except.error ("AttributeError: NoneType object has no attribute fillna".data)
  | some l =>
      match losCalcCol with
      | none => Except.error ("ValueError: must specify a fill value or method".data)
      | some l2 =>
          Except.ok (l.zipWith (fun a b =>
            match a with
            | some v => some v
            | none => b) l2)

/-- The record's stay interval contains day `d` (inclusive both ends; the
interval collapses to the admission day when discharge is absent, and is
empty when the discharge precedes the admission). -/
def containsDay (d : Nat) (r : Canon) : Bool :=
  decide (ingD r ≤ d) && decide (d ≤ endDay r)

/-- Concrete prepared record used by the worked examples. -/
def mkC (ing : Nat) (egr : Option Nat) (cond : Txt) (med : Txt) : Canon :=
  ⟨some ing, egr, none, none, none, cond, [], [], [], med, .na, none, none⟩

/-- Two deaths without a discharge timestamp plus one non-death egress. -/
def exC2 : List Canon :=
  [mkC 1 none ("Óbito".data) [], mkC 1 none ("Óbito".data) [],
   mkC 1 (some 3) ("Alta a piso".data) []]

/-- One non-death egress and no deaths. -/
def exC2b : List Canon := [mkC 1 (some 3) ("Alta a piso".data) []]

/-- One record whose discharge day precedes its admission day. -/
def exRev : List Canon := [mkC 8 (some 5) [] []]

/-- Two well-formed records: one three-day stay and one open admission. -/
def exOk : List Canon := [mkC 5 (some 8) [] [], mkC 6 none [] []]

/-- A late admission still in the unit next to an earlier closed stay. -/
def exC8 : List Canon := [mkC 10 none [] [], mkC 1 (some 5) [] []]

/-- A single closed stay (admission before discharge). -/
def exC8w : List Canon := [mkC 1 (some 5) [] []]

/-- One record of physician `A` with no discharge timestamp. -/
def rsC7 : List Canon := [mkC 1 none [] ("A".data)]

/-- A concrete stand-in for the external day-first parser. -/
def p0 : Txt → Option Nat := fun _ => some 100

/-- A raw row with a parseable admission date and a negative recorded
length of stay. -/
def raw0 : RawRec :=
  ⟨"x".data, [], "-3".data, [], [], [], [], [], [], [], []⟩

/-- A raw row with a parseable admission date and a non-negative recorded
length of stay. -/
def raw1 : RawRec :=
  ⟨"x".data, [], "4".data, [], [], [], [], [], [], [], []⟩

theorem isLeap_shift {y : Nat} (h1 : 1000 ≤ y) (h2 : y ≤ 1100) (h : isLeap y = true) :
    isLeap (y + 1000) = true := by
  simp only [isLeap, decide_eq_true_eq, ne_eq] at h ⊢
  omega

theorem daysInMonth_shift {y : Nat} (m : Nat) (h1 : 1000 ≤ y) (h2 : y ≤ 1100) :
    daysInMonth y m ≤ daysInMonth (y + 1000) m := by
  by_cases hm : m = 2
  · subst hm
    have e : ∀ z : Nat, daysInMonth z 2 = if isLeap z then 29 else 28 := by
      intro z
      simp [daysInMonth]
    rw [e, e]
    by_cases hl : isLeap y = true
    · rw [if_pos hl, if_pos (isLeap_shift h1 h2 hl)]
    · rw [if_neg hl]
      by_cases hb : isLeap (y + 1000) = true
      · rw [if_pos hb]
        omega
      · rw [if_neg hb]
  · simp [daysInMonth, hm]

/-- C3: for every valid parsed date with year in [1000, 1100] the year-typo
correction of `parse_date_series` adds 1000 to the year and leaves month and
day unchanged; for every valid parsed date with year outside that band the
date is returned unchanged. -/
theorem C3_year_fix (d : YMD) (hv : validYMD d) :
    ((1000 ≤ d.year ∧ d.year ≤ 1100) → fixYear d = ⟨d.year + 1000, d.month, d.day⟩)
    ∧ (¬(1000 ≤ d.year ∧ d.year ≤ 1100) → fixYear d = d) := by
  constructor
  · rintro ⟨h1, h2⟩
    have hday : d.day ≤ daysInMonth (d.year + 1000) d.month :=
      le_trans hv.2.2.2 (daysInMonth_shift d.month h1 h2)
    simp [fixYear, replaceYear, h1, h2, hday]
  · intro h
    simp [fixYear, h]

theorem C3_year_fix_witness :
    validYMD ⟨1025, 3, 6⟩ ∧ fixYear ⟨1025, 3, 6⟩ = ⟨2025, 3, 6⟩ :=
  ⟨by decide, (C3_year_fix ⟨1025, 3, 6⟩ (by decide)).1 (by decide)⟩

/-- C6 counterexample: two of the three canonicalizers are not idempotent.
The lab-status canonicalizer maps "Pendiente retorno" to
"Pendiente HR ingreso", which a second application maps to "HR de Ingreso"
through the later "ingreso" substring rule; and the outcome canonicalizer
maps "a :" to "a " (stripping the colon exposes a trailing space), which a
second application strips to "a". -/
theorem C6_cex_outcome_kpc_not_idempotent :
    canon_kpc (canon_kpc ("Pendiente retorno".data)) ≠ canon_kpc ("Pendiente retorno".data)
    ∧ canon_outcome (canon_outcome ("a :".data)) ≠ canon_outcome ("a :".data) := by
  constructor <;> decide

/-- C6 amended: of the three text canonicalizers only the service/origin
canonicalizer is idempotent on every input; `canon_servicio` applied to its
own output returns that output unchanged. -/
theorem C6_amended_servicio_idempotent (x : Txt) :
    canon_servicio (canon_servicio x) = canon_servicio x := by
  cases h : servicioRepl.find? (fun p => p.fst == trimTxt (accentFold x)) with
  | none =>
      have hx : canon_servicio x = x := by
        simp [canon_servicio, h]
      rw [hx]
      exact hx
  | some pr =>
      have hx : canon_servicio x = pr.snd := by
        simp [canon_servicio, h]
      rw [hx]
      have hmem : pr ∈ servicioRepl := List.mem_of_find?_eq_some h
      simp only [servicioRepl, List.mem_cons, List.not_mem_nil, or_false] at hmem
      rcases hmem with rfl | rfl | rfl | rfl | rfl | rfl <;> decide

/-- C7 counterexample: for a category with zero egresses the group table
stores `NaN` (absent) in the mortality column, not the number 0 the claim
asserts. -/
theorem C7_cex_group_mort_nan :
    grpMort (fun r => r.medico) rsC7 ("A".data) = none
    ∧ grpMort (fun r => r.medico) rsC7 ("A".data) ≠ some (0 : ℚ) := by
  constructor <;> decide

/-- C7 amended: in every group table, a category with zero egresses gets an
absent (`NaN`) mortality value — never a raised division error — and the
report formatter renders that absent value as "0.0%". -/
theorem C7_amended_group_mort (key : Canon → Txt) (rs : List Canon) (k : Txt)
    (h : grpEgresos key rs k = 0) :
    grpMort key rs k = none ∧ fmt_pct (grpMort key rs k) = "0.0%".data := by
  simp [grpMort, h, fmt_pct]

theorem C7_amended_group_mort_witness :
    grpEgresos (fun r => r.medico) rsC7 ("A".data) = 0
    ∧ grpMort (fun r => r.medico) rsC7 ("A".data) = none
    ∧ fmt_pct (grpMort (fun r => r.medico) rsC7 ("A".data)) = "0.0%".data :=
  ⟨by decide,
   (C7_amended_group_mort (fun r => r.medico) rsC7 ("A".data) (by decide)).1,
   (C7_amended_group_mort (fun r => r.medico) rsC7 ("A".data) (by decide)).2⟩

/-- C9: the claim is right and the code is wrong. When the recorded
length-of-stay column is entirely absent, `prepare` does not treat the field
as absent: `df.get("los")` is Python `None` and the unguarded
`.fillna(...)` call on line 232 raises `AttributeError`, while a present
column goes through the normal row-wise fill. -/
theorem C9_missing_los_column_crashes :
    losFinalStep none (some [some 3])
      = Except.error ("AttributeError: NoneType object has no attribute fillna".data)
    ∧ losFinalStep (some [none, some 7]) (some [some 3, some 4]) = Except.ok [some 3, some 7] := by
  constructor <;> rfl

/-- C10: the Boolean Normalizer is idempotent on its own output — re-applying
`to_bool` to the string form of a normalized tri-state value returns that
value — so the ventilation rate computed by `compute_kpis` from the
re-normalized column equals the rate over the original tri-state values. -/
theorem C10_to_bool_roundtrip :
    (∀ t : TriState, to_bool (triStr t) = t)
    ∧ ∀ rs : List Canon, (compute_kpis rs).vi_rate = viRate (rs.map (fun r => r.vi)) := by
  have h : ∀ t : TriState, to_bool (triStr t) = t := by
    intro t
    cases t <;> decide
  refine ⟨h, fun rs => ?_⟩
  show viRate (rs.map (fun r => to_bool (triStr r.vi))) = viRate (rs.map (fun r => r.vi))
  exact congrArg viRate (List.map_congr_left (fun r _ => h r.vi))

theorem foldl_min_le_init (t : List Nat) : ∀ a : Nat, t.foldl min a ≤ a := by
  induction t with
  | nil => intro a; simp
  | cons b t ih =>
      intro a
      simp only [List.foldl_cons]
      exact le_trans (ih (min a b)) (min_le_left a b)

theorem foldl_min_le_mem (t : List Nat) : ∀ a x : Nat, x ∈ t → t.foldl min a ≤ x := by
  induction t with
  | nil => intro a x hx; cases hx
  | cons b t ih =>
      intro a x hx
      simp only [List.foldl_cons]
      rcases List.mem_cons.mp hx with rfl | hx'
      · exact le_trans (foldl_min_le_init t (min a x)) (min_le_right a x)
      · exact ih (min a b) x hx'

theorem minN_le {l : List Nat} {x : Nat} (h : x ∈ l) : minN l ≤ x := by
  cases l with
  | nil => cases h
  | cons a t =>
      rcases List.mem_cons.mp h with rfl | h'
      · exact foldl_min_le_init t x
      · exact foldl_min_le_mem t a x h'

theorem le_foldl_max_init (t : List Nat) : ∀ a : Nat, a ≤ t.foldl max a := by
  induction t with
  | nil => intro a; simp
  | cons b t ih =>
      intro a
      simp only [List.foldl_cons]
      exact le_trans (le_max_left a b) (ih (max a b))

theorem le_foldl_max_mem (t : List Nat) : ∀ a x : Nat, x ∈ t → x ≤ t.foldl max a := by
  induction t with
  | nil => intro a x hx; cases hx
  | cons b t ih =>
      intro a x hx
      simp only [List.foldl_cons]
      rcases List.mem_cons.mp hx with rfl | hx'
      · exact le_trans (le_max_right a x) (le_foldl_max_init t (max a x))
      · exact ih (max a b) x hx'

theorem le_maxN {l : List Nat} {x : Nat} (h : x ∈ l) : x ≤ maxN l := by
  cases l with
  | nil => cases h
  | cons a t =>
      rcases List.mem_cons.mp h with rfl | h'
      · exact le_foldl_max_init t x
      · exact le_foldl_max_mem t a x h'

theorem foldl_max_le (B : Nat) (t : List Nat) :
    ∀ a : Nat, a ≤ B → (∀ x ∈ t, x ≤ B) → t.foldl max a ≤ B := by
  induction t with
  | nil => intro a ha _; simpa using ha
  | cons b t ih =>
      intro a ha ht
      simp only [List.foldl_cons]
      exact ih (max a b) (max_le ha (ht b (by simp)))
        (fun x hx => ht x (List.mem_cons_of_mem b hx))

theorem maxN_le {l : List Nat} {B : Nat} (hne : l ≠ []) (h : ∀ x ∈ l, x ≤ B) :
    maxN l ≤ B := by
  cases l with
  | nil => exact absurd rfl hne
  | cons a t =>
      exact foldl_max_le B t a (h a (by simp))
        (fun x hx => h x (List.mem_cons_of_mem a hx))

theorem foldl_max_mem (t : List Nat) : ∀ a : Nat, t.foldl max a = a ∨ t.foldl max a ∈ t := by
  induction t with
  | nil => intro a; left; rfl
  | cons b t ih =>
      intro a
      simp only [List.foldl_cons]
      rcases ih (max a b) with h | h
      · rcases max_choice a b with hm | hm
        · left
          rw [h, hm]
        · right
          rw [h, hm]
          exact List.mem_cons_self b t
      · right
        exact List.mem_cons_of_mem b h

theorem maxN_mem {l : List Nat} (hne : l ≠ []) : maxN l ∈ l := by
  cases l with
  | nil => exact absurd rfl hne
  | cons a t =>
      have he : maxN (a :: t) = t.foldl max a := rfl
      rw [he]
      rcases foldl_max_mem t a with h | h
      · rw [h]
        exact List.mem_cons_self a t
      · exact List.mem_cons_of_mem a h

/-- C2 counterexample: death records without a discharge timestamp make the
death count exceed the egress count, so `safe_pct` reports a
mortality-over-egresses of 200, outside [0, 100]; moreover a table with one
egress and no deaths reports 0 with a nonzero egress count, so the value
does not equal 0 exactly when the egress count is 0. -/
theorem C2_cex_mortality :
    (compute_kpis exC2).mort_sobre_egresos = 200
    ∧ ¬(compute_kpis exC2).mort_sobre_egresos ≤ 100
    ∧ (compute_kpis exC2b).mort_sobre_egresos = 0
    ∧ egresos exC2b ≠ 0 := by
  have ho : obitos exC2 = 2 := by decide
  have he : egresos exC2 = 1 := by decide
  have ho2 : obitos exC2b = 0 := by decide
  have he2 : egresos exC2b = 1 := by decide
  have h1 : (compute_kpis exC2).mort_sobre_egresos = safe_pct (obitos exC2) (egresos exC2) := rfl
  have h2 : (compute_kpis exC2b).mort_sobre_egresos
      = safe_pct (obitos exC2b) (egresos exC2b) := rfl
  rw [h1, h2, ho, he, ho2, he2]
  norm_num [safe_pct]

/-- C2 amended: mortality-over-egresses is always non-negative, equals 0
when the egress count is 0 (the zero denominator yields 0, never an
exception and never NaN), stays within [0, 100] whenever the death count
does not exceed the egress count, and equals 0 exactly when the egress
count is 0 or the death count is 0. -/
theorem C2_amended_mortality (rs : List Canon) :
    0 ≤ (compute_kpis rs).mort_sobre_egresos
    ∧ (egresos rs = 0 → (compute_kpis rs).mort_sobre_egresos = 0)
    ∧ (obitos rs ≤ egresos rs → (compute_kpis rs).mort_sobre_egresos ≤ 100)
    ∧ ((compute_kpis rs).mort_sobre_egresos = 0 ↔ (egresos rs = 0 ∨ obitos rs = 0)) := by
  have hm : (compute_kpis rs).mort_sobre_egresos = safe_pct (obitos rs) (egresos rs) := rfl
  rw [hm]
  by_cases h : (egresos rs : ℚ) = 0
  · have h0 : egresos rs = 0 := by exact_mod_cast h
    simp [safe_pct, h, h0]
  · have h0 : egresos rs ≠ 0 := fun hh => h (by exact_mod_cast hh)
    have hpos : (0 : ℚ) < (egresos rs : ℚ) :=
      lt_of_le_of_ne (Nat.cast_nonneg _) (Ne.symm h)
    rw [safe_pct, if_neg h]
    refine ⟨by positivity, fun hh => absurd hh h0, ?_, ?_⟩
    · intro hle
      have hle2 : (obitos rs : ℚ) ≤ (egresos rs : ℚ) := by exact_mod_cast hle
      have hdiv : (obitos rs : ℚ) / (egresos rs : ℚ) ≤ 1 := (div_le_one hpos).mpr hle2
      calc (obitos rs : ℚ) / (egresos rs : ℚ) * 100 ≤ 1 * 100 :=
            mul_le_mul_of_nonneg_right hdiv (by norm_num)
        _ = 100 := by norm_num
    · constructor
      · intro hh
        rcases mul_eq_zero.mp hh with hd | habs
        · rcases div_eq_zero_iff.mp hd with hnum | hden
          · right
            exact_mod_cast hnum
          · exact absurd hden h
        · norm_num at habs
      · rintro (hh | hh)
        · exact absurd hh h0
        · simp [hh]

theorem C2_amended_mortality_witness :
    obitos exC2b ≤ egresos exC2b ∧ (compute_kpis exC2b).mort_sobre_egresos ≤ 100 :=
  ⟨by decide, (C2_amended_mortality exC2b).2.2.1 (by decide)⟩

/-- C4 counterexample: a canonical record whose recorded length-of-stay cell
holds "-3" keeps that value as its final length of stay, so the final length
of stay can be negative. -/
theorem C4_cex_negative_recorded_los :
    (normRow p0 raw0).fec_ing.isSome = true
    ∧ (normRow p0 raw0).los_final = some (-3)
    ∧ ¬(0 : Int) ≤ (-3 : Int) := by
  refine ⟨?_, ?_, ?_⟩ <;> decide

/-- C4 amended: the final length of stay equals the recorded value when
present, else the non-negative day difference between discharge and
admission, else is absent; the computed fallback is never negative, so the
final length of stay is non-negative whenever the recorded value, when
present, is non-negative — but a negative recorded value is kept as-is. -/
theorem C4_amended_los_final (p : Txt → Option Nat) (r : RawRec) :
    (normRow p r).los_final
      = specFinalLos (normRow p r).los (normRow p r).fec_ing (normRow p r).fec_egr
    ∧ ((normRow p r).los = none → ∀ w, (normRow p r).los_final = some w → 0 ≤ w)
    ∧ ((∀ v, (normRow p r).los = some v → 0 ≤ v) →
        ∀ w, (normRow p r).los_final = some w → 0 ≤ w) := by
  have key : ∀ (L : Option Int) (I E : Option Nat),
      fillFirst L (losCalcOf I E) = specFinalLos L I E
      ∧ (L = none → ∀ w, fillFirst L (losCalcOf I E) = some w → 0 ≤ w)
      ∧ ((∀ v, L = some v → 0 ≤ v) →
          ∀ w, fillFirst L (losCalcOf I E) = some w → 0 ≤ w) := by
    intro L I E
    rcases L with _ | v
    · have hnn : ∀ w, losCalcOf I E = some w → 0 ≤ w := by
        intro w hw
        rcases I with _ | i
        · cases hw
        · rcases E with _ | e
          · cases hw
          · simp only [losCalcOf] at hw
            split at hw
            · rename_i hc
              simp only [Option.some.injEq] at hw
              omega
            · cases hw
      refine ⟨?_, fun _ => hnn, fun _ => hnn⟩
      rcases I with _ | i
      · simp [fillFirst, losCalcOf, specFinalLos]
      · rcases E with _ | e
        · simp [fillFirst, losCalcOf, specFinalLos]
        · simp [fillFirst, losCalcOf, specFinalLos, sub_nonneg]
    · refine ⟨by simp [fillFirst, specFinalLos], ?_, ?_⟩
      · intro h
        cases h
      · intro hv w hw
        simp only [fillFirst, Option.some.injEq] at hw
        exact hw ▸ hv v rfl
  exact key (to_int r.los) (parse_date_chain p r.fec_ing) (parse_date_chain p r.fec_egr)

theorem C4_amended_los_final_witness :
    (∀ v, (normRow p0 raw1).los = some v → 0 ≤ v)
    ∧ ∀ w, (normRow p0 raw1).los_final = some w → 0 ≤ w :=
  ⟨fun v hv => by
      rw [(by decide : (normRow p0 raw1).los = some 4)] at hv
      cases hv
      decide,
   (C4_amended_los_final p0 raw1).2.2 (fun v hv => by
      rw [(by decide : (normRow p0 raw1).los = some 4)] at hv
      cases hv
      decide)⟩

/-- C8 counterexample: with an admission on day 10 still in the unit and one
closed stay discharged on day 5, `compute_kpis` reports the period end as
day 5 (the max discharge), not day 10 (the latest admission) as the claim
requires. -/
theorem C8_cex_periodo_fin :
    (compute_kpis exC8).periodo_fin = some 5
    ∧ specPeriodoFin exC8 = some 10
    ∧ (compute_kpis exC8).periodo_fin ≠ specPeriodoFin exC8 := by
  refine ⟨?_, ?_, ?_⟩ <;> decide

/-- C8 amended: the reported period end is the maximum discharge date when
any discharge exists, else the maximum admission date; it coincides with the
claim's maximum of (max discharge, max admission) exactly when no discharge
exists at all or no admission is later than every discharge — and whenever a
discharge exists but some admission is later than every discharge, the
reported end differs from the claimed value. -/
theorem C8_amended_periodo_fin (rs : List Canon) :
    (compute_kpis rs).periodo_fin = specPeriodoFin rs
      ↔ (egrList rs = [] ∨ ∀ i ∈ ingList rs, ∃ e ∈ egrList rs, i ≤ e) := by
  have hp : (compute_kpis rs).periodo_fin
      = (if egrList rs = [] then
          (if ingList rs = [] then none else some (maxN (ingList rs)))
         else some (maxN (egrList rs))) := rfl
  constructor
  · intro heq
    by_contra hnot
    push_neg at hnot
    obtain ⟨hegr, i, hi, hlt⟩ := hnot
    have hne2 : ingList rs ++ egrList rs ≠ [] := by
      intro hh
      exact hegr (List.append_eq_nil.mp hh).2
    rw [hp, if_neg hegr, specPeriodoFin, if_neg hne2, Option.some.injEq] at heq
    have h1 : i ≤ maxN (ingList rs ++ egrList rs) :=
      le_maxN (List.mem_append_left _ hi)
    have h2 : maxN (egrList rs) < i := hlt _ (maxN_mem hegr)
    omega
  · intro h
    rw [hp]
    by_cases hegr : egrList rs = []
    · rw [if_pos hegr]
      simp [specPeriodoFin, hegr]
    · rw [if_neg hegr]
      rcases h with h | h
      · exact absurd h hegr
      · have hne2 : ingList rs ++ egrList rs ≠ [] := by
          intro hh
          exact hegr (List.append_eq_nil.mp hh).2
        have hkey : maxN (ingList rs ++ egrList rs) = maxN (egrList rs) := by
          apply le_antisymm
          · apply maxN_le hne2
            intro x hx
            rcases List.mem_append.mp hx with hx | hx
            · obtain ⟨e, he, hxe⟩ := h x hx
              exact le_trans hxe (le_maxN he)
            · exact le_maxN hx
          · exact le_maxN (List.mem_append_right _ (maxN_mem hegr))
        rw [specPeriodoFin, if_neg hne2, hkey]

theorem C8_amended_periodo_fin_witness :
    (∀ i ∈ ingList exC8w, ∃ e ∈ egrList exC8w, i ≤ e)
    ∧ (compute_kpis exC8w).periodo_fin = specPeriodoFin exC8w :=
  ⟨by decide, (C8_amended_periodo_fin exC8w).mpr (Or.inr (by decide))⟩

theorem sum_countP_toFinset (l : List Txt) :
    ∑ k ∈ l.toFinset, l.countP (fun x => x == k) = l.length := by
  induction l with
  | nil => simp
  | cons a t ih =>
      have hsplit : ∀ k : Txt, (a :: t).countP (fun x => x == k)
          = t.countP (fun x => x == k) + (if a = k then 1 else 0) := by
        intro k
        rw [List.countP_cons]
        congr 1
        by_cases h : a = k <;> simp [h]
      rw [List.toFinset_cons, Finset.sum_congr rfl (fun k _ => hsplit k),
        Finset.sum_add_distrib]
      have h2 : (∑ k ∈ insert a t.toFinset, (if a = k then 1 else 0)) = 1 := by
        rw [Finset.sum_ite_eq]
        simp
      have h1 : (∑ k ∈ insert a t.toFinset, t.countP (fun x => x == k)) = t.length := by
        by_cases hmem : a ∈ t.toFinset
        · rw [Finset.insert_eq_self.mpr hmem, ih]
        · rw [Finset.sum_insert hmem]
          have hz : t.countP (fun x => x == a) = 0 := by
            rw [List.countP_eq_zero]
            intro x hx hxa
            have hxeq : x = a := eq_of_beq hxa
            exact hmem (List.mem_toFinset.mpr (hxeq ▸ hx))
          rw [hz, ih, Nat.zero_add]
      rw [h1, h2]
      simp

theorem grpCasos_eq_countP_map (key : Canon → Txt) (rs : List Canon) (k : Txt) :
    grpCasos key rs k = (rs.map key).countP (fun x => x == k) := by
  rw [List.countP_map]
  simp only [grpCasos, groupOf, Function.comp]
  rw [← List.countP_eq_length_filter]
  rfl

/-- C1: a canonical record reaches the pipeline's output set exactly when
its admission timestamp parsed; every output record has a parsed admission
date; and no later component excludes records — the KPI admission count is
the full filtered length, and every group table's case counts over the
present categories add back up to the full filtered length. -/
theorem C1_single_filter_gate (p : Txt → Option Nat) (rows : List RawRec) :
    (∀ raw, raw ∈ rows →
      ((normRow p raw).fec_ing.isSome = true ↔ normRow p raw ∈ prepareRows p rows))
    ∧ (∀ c, c ∈ prepareRows p rows → c.fec_ing.isSome = true)
    ∧ (compute_kpis (prepareRows p rows)).admisiones = (prepareRows p rows).length
    ∧ (∀ key : Canon → Txt,
        ∑ k ∈ ((prepareRows p rows).map key).toFinset,
          grpCasos key (prepareRows p rows) k = (prepareRows p rows).length) := by
  refine ⟨?_, ?_, rfl, ?_⟩
  · intro raw hraw
    constructor
    · intro hsome
      exact List.mem_filter.mpr ⟨List.mem_map_of_mem _ hraw, hsome⟩
    · intro hmem
      exact (List.mem_filter.mp hmem).2
  · intro c hc
    exact (List.mem_filter.mp hc).2
  · intro key
    calc ∑ k ∈ ((prepareRows p rows).map key).toFinset, grpCasos key (prepareRows p rows) k
        = ∑ k ∈ ((prepareRows p rows).map key).toFinset,
            ((prepareRows p rows).map key).countP (fun x => x == k) :=
          Finset.sum_congr rfl (fun k _ => grpCasos_eq_countP_map key _ k)
      _ = ((prepareRows p rows).map key).length := sum_countP_toFinset _
      _ = (prepareRows p rows).length := List.length_map _ _

theorem C1_single_filter_gate_witness :
    (normRow p0 raw0).fec_ing.isSome = true ∧ normRow p0 raw0 ∈ prepareRows p0 [raw0] :=
  ⟨by decide,
   ((C1_single_filter_gate p0 [raw0]).1 raw0 (by decide)).mp (by decide)⟩

theorem mem_rangeDays {a b x : Nat} : x ∈ rangeDays a b ↔ a ≤ x ∧ x ≤ b := by
  simp only [rangeDays, List.mem_map, List.mem_range]
  constructor
  · rintro ⟨i, hi, rfl⟩
    omega
  · rintro ⟨h1, h2⟩
    exact ⟨x - a, by omega, by omega⟩

theorem nodup_rangeDays (a b : Nat) : (rangeDays a b).Nodup :=
  List.Nodup.map (fun i j h => by omega) (List.nodup_range _)

theorem foldl_bumpDay_eval (idx : List Nat) :
    ∀ ds : List Nat, ds.Nodup → ∀ (c : Nat → Nat) (x : Nat),
      (ds.foldl (bumpDay idx) c) x = c x + (if x ∈ idx ∧ x ∈ ds then 1 else 0) := by
  intro ds
  induction ds with
  | nil =>
      intro _ c x
      simp
  | cons d t ih =>
      intro hnd c x
      have hnd2 : t.Nodup := (List.nodup_cons.mp hnd).2
      have hdt : d ∉ t := (List.nodup_cons.mp hnd).1
      simp only [List.foldl_cons]
      rw [ih hnd2 (bumpDay idx c d) x]
      by_cases hxd : x = d
      · subst hxd
        by_cases hxi : x ∈ idx
        · simp [bumpDay, hxi, hdt, List.mem_cons]
        · simp [bumpDay, hxi, List.mem_cons]
      · by_cases hdi : d ∈ idx
        · simp [bumpDay, hdi, hxd, List.mem_cons]
        · simp [bumpDay, hdi, hxd, List.mem_cons]

theorem addRec_eval (idx : List Nat) (c : Nat → Nat) (r : Canon) (x : Nat) :
    addRec idx c r x = c x + (if x ∈ idx ∧ containsDay x r then 1 else 0) := by
  rw [addRec, foldl_bumpDay_eval idx _ (nodup_rangeDays _ _) c x]
  congr 1
  have hiff : (x ∈ idx ∧ x ∈ rangeDays (ingD r) (endDay r)) ↔ (x ∈ idx ∧ containsDay x r) := by
    rw [mem_rangeDays]
    simp [containsDay]
  rw [if_congr hiff rfl rfl]

theorem census_foldl_eval (idx : List Nat) (rs : List Canon) :
    ∀ (c : Nat → Nat) (x : Nat),
      (rs.foldl (addRec idx) c) x
        = c x + (if x ∈ idx then rs.countP (fun r => containsDay x r) else 0) := by
  induction rs with
  | nil =>
      intro c x
      simp
  | cons r t ih =>
      intro c x
      simp only [List.foldl_cons]
      rw [ih (addRec idx c r) x, addRec_eval, List.countP_cons]
      by_cases hxi : x ∈ idx
      · by_cases hcd : containsDay x r
        · simp [hxi, hcd]
          omega
        · simp [hxi, hcd]
      · simp [hxi]

theorem sum_map_add (rs : List Canon) (f g : Canon → Nat) :
    (rs.map (fun r => f r + g r)).sum = (rs.map f).sum + (rs.map g).sum := by
  induction rs with
  | nil => rfl
  | cons r t ih =>
      simp only [List.map_cons, List.sum_cons, ih]
      omega

theorem countP_eq_sum_if (rs : List Canon) (q : Canon → Bool) :
    rs.countP q = (rs.map (fun r => if q r then 1 else 0)).sum := by
  induction rs with
  | nil => rfl
  | cons r t ih =>
      rw [List.countP_cons]
      simp only [List.map_cons, List.sum_cons, ih]
      omega

theorem sum_countP_swap (ds : List Nat) (rs : List Canon) (q : Nat → Canon → Bool) :
    (ds.map (fun d => rs.countP (q d))).sum
      = (rs.map (fun r => ds.countP (fun d => q d r))).sum := by
  induction ds with
  | nil =>
      simp only [List.map_nil, List.sum_nil, List.countP_nil]
      induction rs with
      | nil => rfl
      | cons r t ih =>
          rw [List.map_cons, List.sum_cons, ← ih]
          rfl
  | cons d t ih =>
      simp only [List.map_cons, List.sum_cons, ih]
      have h1 : (rs.map (fun r => (d :: t).countP (fun d2 => q d2 r))).sum
          = (rs.map (fun r => t.countP (fun d2 => q d2 r) + (if q d r then 1 else 0))).sum := by
        congr 1
        apply List.map_congr_left
        intro r _
        rw [List.countP_cons]
      rw [h1, sum_map_add, ← countP_eq_sum_if]
      omega

theorem countP_le_sum_map (rs : List Canon) (f : Canon → Nat) (q : Canon → Bool)
    (h : ∀ r ∈ rs, q r = true → 1 ≤ f r) : rs.countP q ≤ (rs.map f).sum := by
  induction rs with
  | nil => simp
  | cons r t ih =>
      rw [List.countP_cons]
      simp only [List.map_cons, List.sum_cons]
      have ht : t.countP q ≤ (t.map f).sum :=
        ih (fun b hb => h b (List.mem_cons_of_mem r hb))
      by_cases hq : q r = true
      · have h1 := h r (by simp) hq
        rw [if_pos hq]
        omega
      · rw [if_neg hq]
        omega

/-- C5 counterexample: a record whose discharge day precedes its admission
day contributes zero census days (`pd.date_range` is empty), so the sum of
occupancy over the observed span is 0 while the filtered record count is 1 —
the claim's "sum of occupancy is at least the record count" fails. -/
theorem C5_cex_reversed_interval :
    ((spanDays exRev).map (census exRev)).sum = 0
    ∧ exRev.length = 1
    ∧ ¬(exRev.length ≤ ((spanDays exRev).map (census exRev)).sum) := by
  refine ⟨?_, rfl, ?_⟩ <;> decide

/-- C5 amended: for every calendar day of the observed span the census value
equals the number of filtered records whose admission interval contains that
day (inclusive both ends, collapsing to the admission day when discharge is
absent, empty when discharge precedes admission); consequently the sum of
occupancy over the span is at least the number of records whose interval is
nonempty (discharge absent or not before admission) — each such record
contributes at least its admission day. -/
theorem C5_amended_census (rs : List Canon) (hI : ∀ r ∈ rs, r.fec_ing.isSome = true) :
    (∀ d ∈ spanDays rs, census rs d = rs.countP (fun r => containsDay d r))
    ∧ rs.countP (fun r => containsDay (ingD r) r) ≤ ((spanDays rs).map (census rs)).sum := by
  have hcell : ∀ d ∈ spanDays rs, census rs d = rs.countP (fun r => containsDay d r) := by
    intro d hd
    rw [census, census_foldl_eval (spanDays rs) rs (fun _ => 0) d]
    simp [hd]
  refine ⟨hcell, ?_⟩
  have hmapeq : (spanDays rs).map (census rs)
      = (spanDays rs).map (fun d => rs.countP (fun r => containsDay d r)) :=
    List.map_congr_left (fun d hd => hcell d hd)
  rw [hmapeq, sum_countP_swap (spanDays rs) rs (fun d r => containsDay d r)]
  apply countP_le_sum_map
  intro r hr hgood
  have hing : ingD r ∈ spanDays rs := by
    obtain ⟨i, hi⟩ := Option.isSome_iff_exists.mp (hI r hr)
    have hiD : ingD r = i := by
      simp [ingD, hi]
    have himem : i ∈ ingList rs := by
      simp only [ingList, List.mem_filterMap]
      exact ⟨r, hr, hi⟩
    rw [spanDays, mem_rangeDays, hiD]
    constructor
    · rw [spanStart]
      by_cases hegr : egrList rs = []
      · rw [if_pos hegr]
        exact minN_le himem
      · rw [if_neg hegr]
        exact le_trans (min_le_left _ _) (minN_le himem)
    · rw [spanEnd]
      by_cases hegr : egrList rs = []
      · rw [if_pos hegr]
        exact le_maxN himem
      · rw [if_neg hegr]
        exact le_trans (le_maxN himem) (le_max_left _ _)
  have hpos : 0 < (spanDays rs).countP (fun d => containsDay d r) := by
    rw [List.countP_pos_iff]
    exact ⟨ingD r, hing, hgood⟩
  omega

theorem C5_amended_census_witness :
    (∀ r ∈ exOk, r.fec_ing.isSome = true)
    ∧ exOk.countP (fun r => containsDay (ingD r) r)
        ≤ ((spanDays exOk).map (census exOk)).sum :=
  ⟨by decide, (C5_amended_census exOk (by decide)).2⟩
